import Mathlib

/-!
Verification of the audio-slicer GUI repository (files `src/utils/preview.py`
and `src/gui/mainwindow.py`) against its natural-language specification.

The slicing engine itself (`slicer2.Slicer`) is imported by the GUI but is not
part of the source under verification; where a claim needs it, it is abstracted
as a function parameter.
-/

set_option linter.unusedVariables false

namespace AudioSlicer

/-! ## Embedding of `src/utils/preview.py` (class `SlicingPreview`) -/

/-- Source: `SlicingPreview._apply_slice(begin, end)`:
returns `[begin * hop_size, min(waveform_shape, end * hop_size)]`. -/
def applySlice (hop ws b e : Nat) : Nat × Nat :=
  (b * hop, min ws (e * hop))

/-- Source: `SlicingPreview._get_ranges(sil_tags)`.  An empty tag list yields
an empty result; otherwise an optional leading range (when the first tag does
not start at hop 0), one range between each pair of consecutive tags, and an
optional trailing range (when the last tag ends before `total_frames`). -/
def getRanges (hop ws tf : Nat) : List (Nat × Nat) → List (Nat × Nat)
  | [] => []
  | t0 :: rest =>
      (if 0 < t0.1 then [applySlice hop ws 0 t0.1] else [])
        ++ (((t0 :: rest).zip rest).map (fun p => applySlice hop ws p.1.2 p.2.1))
        ++ (if (rest.getLastD t0).2 < tf then
              [applySlice hop ws (rest.getLastD t0).2 tf] else [])

/-- Modelled from the claim text for the chunk ranges, in hop units: the
complement of the episodes within `[0, total_frames)`, enumerated as
`[0, first.start)` when speech precedes the first episode, then
`[tag[i].end, tag[i+1].start)` between consecutive episodes, then
`[last.end, total_frames)` after the last episode. -/
def specChunkHopRanges (tf : Nat) : List (Nat × Nat) → List (Nat × Nat)
  | [] => []
  | t0 :: rest =>
      (if 0 < t0.1 then [(0, t0.1)] else [])
        ++ (((t0 :: rest).zip rest).map (fun p => (p.1.2, p.2.1)))
        ++ (if (rest.getLastD t0).2 < tf then [((rest.getLastD t0).2, tf)] else [])

/-- Helper: the interval complement of a tag list inside `[lo, tf)`,
defined by structural recursion. -/
def complementFrom (tf : Nat) (lo : Nat) : List (Nat × Nat) → List (Nat × Nat)
  | [] => if lo < tf then [(lo, tf)] else []
  | t :: rest => (if lo < t.1 then [(lo, t.1)] else []) ++ complementFrom tf t.2 rest

/-- Tags are ordered and non-overlapping, starting no earlier than `lo`. -/
def tagsSortedFrom (lo : Nat) : List (Nat × Nat) → Prop
  | [] => True
  | t :: rest => lo ≤ t.1 ∧ t.1 ≤ t.2 ∧ tagsSortedFrom t.2 rest

instance (lo : Nat) (l : List (Nat × Nat)) : Decidable (tagsSortedFrom lo l) := by
  induction l generalizing lo with
  | nil => exact isTrue trivial
  | cons t rest ih =>
      have : Decidable (lo ≤ t.1 ∧ t.1 ≤ t.2 ∧ tagsSortedFrom t.2 rest) :=
        @instDecidableAnd _ _ _ (@instDecidableAnd _ _ _ (ih t.2))
      exact this

/-- The end of the last tag, or `lo` if there is none. -/
def lastEnd (lo : Nat) : List (Nat × Nat) → Nat
  | [] => lo
  | t :: rest => lastEnd t.2 rest

/-- Source: the bar-chart data of `SlicingPreview._plot_preview`, together
with the per-range annotations drawn on the waveform subplot. -/
structure PreviewPlot where
  annotations : List (String × (Nat × Nat))
  distItems : List String
  distValues : List Nat
  rankItems : List String
  rankValues : List Nat
deriving DecidableEq

/-- Source: `SlicingPreview._plot_preview`.  The waveform annotations come
from `_get_ranges`; the "Length Distribution" and "Length Ranking List"
bar data are the literal constant lists in the source. -/
def plotPreview (hop ws tf : Nat) (silTags : List (Nat × Nat)) : PreviewPlot :=
  let ranges := getRanges hop ws tf silTags
  { annotations := ranges.enum.map (fun p => ("#" ++ toString p.1, p.2))
  , distItems := ["<2", "<5", "<8", "<11", "<14", "<17", "<20", ">=20"]
  , distValues := [1, 5, 7, 11, 13, 7, 5, 1]
  , rankItems := ["#5", "#1", "#6", "#8", "#12", "#7"]
  , rankValues := [21, 28, 32, 36, 45, 51] }

/-! ## Path-string helpers (CPython `posixpath` semantics, used by
`mainwindow.py` via `os.path`). Qt-style paths use `/` separators. -/

/-- Characters after the last `/` of a character list. -/
def afterLastSep (l : List Char) : List Char :=
  (l.reverse.takeWhile (fun c => c ≠ '/')).reverse

/-- `os.path.basename` / `QFileInfo.fileName`: the part after the last `/`. -/
def pyBasename (p : String) : String :=
  String.mk (afterLastSep p.toList)

/-- Extension of a basename, per CPython `posixpath.splitext`: the suffix from
the last dot, unless every character before that dot (in the basename) is
itself a dot. -/
def extOfBase (base : List Char) : List Char :=
  let stripped := base.dropWhile (fun c => c = '.')
  if stripped.contains '.' then
    '.' :: (base.reverse.takeWhile (fun c => c ≠ '.')).reverse
  else []

/-- `os.path.splitext(p)[1]`. -/
def pySplitextExt (p : String) : String :=
  String.mk (extOfBase (afterLastSep p.toList))

/-- `basename.rsplit('.', maxsplit=1)[0]`: everything before the last dot,
or the whole string when it has no dot. -/
def stemChars (base : List Char) : List Char :=
  if base.contains '.' then
    ((base.reverse.dropWhile (fun c => c ≠ '.')).drop 1).reverse
  else base

/-- The stem used for output file names in `WorkThread.run`. -/
def pyStem (p : String) : String :=
  String.mk (stemChars p.toList)

/-- `posixpath.dirname`: everything up to the last `/`, with trailing slashes
stripped unless the result is all slashes. -/
def pyDirname (p : String) : String :=
  let l := p.toList
  let head := (l.reverse.dropWhile (fun c => c ≠ '/')).reverse
  if head = [] then ""
  else if head.all (fun c => c = '/') then String.mk head
  else String.mk ((head.reverse.dropWhile (fun c => c = '/')).reverse)

/-- `posixpath.join` for two components. -/
def pyJoin (a b : String) : String :=
  if b.startsWith "/" then b
  else if a = "" then b
  else if a.endsWith "/" then a ++ b
  else a ++ "/" ++ b

/-- `os.path.abspath` restricted to the cases the GUI meets: an absolute path
is returned unchanged, a relative one is joined to the working directory
(`normpath` collapsing is omitted; the GUI always supplies absolute paths). -/
def pyAbspath (cwd p : String) : String :=
  if p.startsWith "/" then p else pyJoin cwd p

/-! ## Embedding of `src/gui/mainwindow.py` -/

/-- A decoded sample array as returned by `soundfile.read`: one-dimensional
for mono input, two-dimensional (frames x channels) otherwise.  Sample values
are abstracted as integers (their numeric content never matters to the GUI). -/
inductive NDArr where
  | one (xs : List Int)
  | two (m : List (List Int))
deriving DecidableEq

/-- List-of-rows transpose (numpy `.T` on a rectangular 2-D array). -/
def tr (m : List (List Int)) : List (List Int) :=
  match m with
  | [] => []
  | r :: _ => (List.range r.length).map (fun j => m.map (fun row => row.getD j 0))

/-- numpy `.T`: identity on 1-D arrays, transpose on 2-D arrays. -/
def NDArr.T : NDArr → NDArr
  | .one xs => .one xs
  | .two m => .two (tr m)

/-- `len(audio.shape) > 1`. -/
def NDArr.isMultiDim : NDArr → Bool
  | .one _ => false
  | .two _ => true

/-- One `soundfile.write(path, chunk, sr)` call. -/
structure WriteOp where
  path : String
  data : NDArr
  sr : Nat
deriving DecidableEq

/-- The observable effects of processing one file inside `WorkThread.run`. -/
structure FileOutput where
  mkpathCalled : Bool
  writes : List WriteOp
deriving DecidableEq

/-- The destination directory chosen by `WorkThread.run`: the configured
output directory, or the directory of the (absolutized) source file when none
is configured. -/
def runOutDir (setting cwd filename : String) : String :=
  if setting = "" then pyDirname (pyAbspath cwd filename) else setting

/-- The output path of chunk `i`: `{stem}_{i}.wav` inside the directory. -/
def chunkPath (outDir stem : String) (i : Nat) : String :=
  pyJoin outDir (stem ++ "_" ++ toString i ++ ".wav")

/-- Source: the per-file body of `WorkThread.run`.  The slicing engine
(`slicer2.Slicer.get_slice_tags` + `Slicer.slice`, not part of the GUI
sources) is abstracted as `sliceFn`, applied to the possibly transposed
audio exactly as in the source.  `dirExists` models `QDir(out_dir).exists()`;
`mkpathCalled` records the recursive `QDir.mkpath` call. -/
def processFile (sliceFn : NDArr → List NDArr) (setting cwd : String)
    (dirExists : Bool) (filename : String) (audio0 : NDArr) (sr : Nat) :
    FileOutput :=
  let isMono := !audio0.isMultiDim
  let audio := if isMono then audio0 else audio0.T
  let chunks := sliceFn audio
  let outDir := runOutDir setting cwd filename
  { mkpathCalled := if setting = "" then false else !dirExists
  , writes := chunks.enum.map (fun p =>
      { path := chunkPath outDir (pyStem (pyBasename filename)) p.1
      , data := if isMono then p.2 else p.2.T
      , sr := sr }) }

/-- Source: the file loop of `WorkThread.run`.  `decode` models
`soundfile.read`; a `none` result models the raised decode exception, which
propagates out of `run` uncaught: the loop stops there, later files are never
touched, and only the name of the first failing file is observable.  The
first component lists the files that completed, in order, with their
effects. -/
def runFiles (decode : String → Option (NDArr × Nat))
    (sliceFn : NDArr → List NDArr) (setting cwd : String) (dirExists : Bool) :
    List String → List (String × FileOutput) × Option String
  | [] => ([], none)
  | f :: rest =>
      match decode f with
      | none => ([], some f)
      | some d =>
          let out := processFile sliceFn setting cwd dirExists f d.1 d.2
          let r := runFiles decode sliceFn setting cwd dirExists rest
          ((f, out) :: r.1, r.2)

/-- Progress notifications visible to the window: `oneFinished` is emitted
after each completed file, and the thread's `finished` signal (wired to
`MainWindow._threadFinished`, which shows the completion box) fires once when
`run` ends. -/
inductive RunEvent where
  | fileDone (name : String)
  | batchDone
deriving DecidableEq

/-- The ordered event stream of one batch run. -/
def guiEvents (decode : String → Option (NDArr × Nat))
    (sliceFn : NDArr → List NDArr) (setting cwd : String) (dirExists : Bool)
    (files : List String) : List RunEvent :=
  ((runFiles decode sliceFn setting cwd dirExists files).1.map
      (fun p => RunEvent.fileDone p.1)) ++ [RunEvent.batchDone]

/-- The window state touched by the handlers of `MainWindow`. -/
structure WinState where
  taskList : List (String × String)
  selected : List Nat
  workers : List Unit
  workCount : Nat
  workFinished : Nat
  processing : Bool
  progressMax : Nat
  progressVal : Nat
deriving DecidableEq

/-- The state right after `MainWindow.__init__`. -/
def initState : WinState :=
  { taskList := [], selected := [], workers := [], workCount := 0
  , workFinished := 0, processing := false, progressMax := 100
  , progressVal := 0 }

/-- Source: `MainWindow._on_start`.  Returns the new state and whether a
worker thread was started.  When `processing` is set, only a warning box is
shown; when the task list is empty, the handler returns silently. -/
def onStart (s : WinState) : WinState × Bool :=
  if s.processing then (s, false)
  else if s.taskList.length = 0 then (s, false)
  else
    ({ s with progressMax := s.taskList.length
            , progressVal := 0
            , workCount := s.taskList.length
            , workFinished := 0
            , processing := true
            , workers := s.workers ++ [()] }, true)

/-- Source: `MainWindow._oneFinished`. -/
def oneFinishedHandler (s : WinState) : WinState :=
  { s with workFinished := s.workFinished + 1
         , progressVal := s.workFinished + 1 }

/-- Source: `MainWindow._threadFinished` (joins and clears the worker list,
clears the processing flag, shows the completion box). -/
def threadFinishedHandler (s : WinState) : WinState :=
  { s with workers := [], processing := false }

/-- Source: `MainWindow._on_remove_audio_file`.  The handler binds
`self.ui.lwTaskList.selectedItems` (without even calling it) and returns;
no state is touched. -/
def onRemoveAudioFile (s : WinState) : WinState :=
  let selectedItems := s.selected
  s

/-- Source: `MainWindow._on_add_audio_files` (paths chosen in the dialog are
appended unless a run is in progress). -/
def onAddAudioFiles (s : WinState) (picked : List String) : WinState :=
  if s.processing then s
  else { s with taskList := s.taskList ++ picked.map (fun p => (pyBasename p, p)) }

/-- Source: `MainWindow._on_clear_audio_list`. -/
def onClearAudioList (s : WinState) : WinState :=
  if s.processing then s else { s with taskList := [] }

/-- A dropped URL: whether it refers to a local file, and that local path. -/
structure QUrl where
  isLocalFile : Bool
  localFile : String
deriving DecidableEq

/-- The acceptance test shared by `dragEnterEvent`/`dropEvent`: a local file
whose `splitext` extension lower-cases to `.wav`. -/
def wavUrl (u : QUrl) : Bool :=
  u.isLocalFile && ((pySplitextExt u.localFile).toLower == ".wav")

/-- The task-list items a drop should append: the acceptable URLs in order,
each carrying its file name as display text and the full local path. -/
def wavItems (urls : List QUrl) : List (String × String) :=
  (urls.filter wavUrl).map (fun u => (pyBasename u.localFile, u.localFile))

/-- Source: the scan loop of `MainWindow.dragEnterEvent` (stops at the first
acceptable URL). -/
def hasWav : List QUrl → Bool
  | [] => false
  | u :: rest =>
      if !u.isLocalFile then hasWav rest
      else if (pySplitextExt u.localFile).toLower == ".wav" then true
      else hasWav rest

/-- Source: `MainWindow.dragEnterEvent` accepts the drag exactly when the
scan finds a local `.wav` file (otherwise the event stays unaccepted). -/
def dragEnterAccepts (urls : List QUrl) : Bool :=
  hasWav urls

/-- Source: the item-building loop of `MainWindow.dropEvent`. -/
def droppedItems : List QUrl → List (String × String)
  | [] => []
  | u :: rest =>
      if !u.isLocalFile then droppedItems rest
      else if !((pySplitextExt u.localFile).toLower == ".wav") then droppedItems rest
      else (pyBasename u.localFile, u.localFile) :: droppedItems rest

/-- Source: `MainWindow.dropEvent`. -/
def dropEvent (s : WinState) (urls : List QUrl) : WinState :=
  { s with taskList := s.taskList ++ droppedItems urls }

/-- The user/thread events that drive `MainWindow`'s state. -/
inductive WinEvent where
  | startReq
  | oneFin
  | threadFin
  | addFiles (picked : List String)
  | clearList
  | removeFile
  | drop (urls : List QUrl)
deriving DecidableEq

/-- One step of the window's event loop. -/
def step (s : WinState) : WinEvent → WinState
  | .startReq => (onStart s).1
  | .oneFin => oneFinishedHandler s
  | .threadFin => threadFinishedHandler s
  | .addFiles picked => onAddAudioFiles s picked
  | .clearList => onClearAudioList s
  | .removeFile => onRemoveAudioFile s
  | .drop urls => dropEvent s urls

/-! ## Auxiliary definitions used by the theorems -/

/-- Window invariant: the processing flag tracks the worker list, and at most
one worker thread is ever alive. -/
def winInv (s : WinState) : Prop :=
  s.processing = !s.workers.isEmpty ∧ s.workers.length ≤ 1

/-- A window state with a run in progress (used to instantiate theorems). -/
def busyState : WinState :=
  { initState with
      processing := true
      workers := [()]
      taskList := [("a.wav", "/music/a.wav")]
      workCount := 1 }

/-- A decoder that succeeds only on `good.wav` (concrete instance for the
decode-failure behavior). -/
def decodeBad : String → Option (NDArr × Nat) :=
  fun f => if f = "good.wav" then some (NDArr.one [0, 1], 8000) else none

/-- A decoder that always succeeds. -/
def decodeOk : String → Option (NDArr × Nat) :=
  fun _ => some (NDArr.one [0], 44100)

/-- A slicing engine that returns the whole buffer as a single chunk. -/
def passSlice : NDArr → List NDArr := fun a => [a]

/-- A concrete dropped-URL list: a local upper-case `.WAV` file, a non-local
URL, and a local `.mp3` file. -/
def demoUrls : List QUrl :=
  [⟨true, "/music/a.WAV"⟩, ⟨false, "/music/b.wav"⟩, ⟨true, "/music/c.mp3"⟩]

/-! ## Lemmas about the range complement (`SlicingPreview._get_ranges`) -/

theorem tagsSortedFrom_mem :
    ∀ (l : List (Nat × Nat)) (lo : Nat), tagsSortedFrom lo l →
      ∀ t ∈ l, lo ≤ t.1 ∧ t.1 ≤ t.2 := by
  intro l
  induction l with
  | nil => intro lo _ t ht; simp at ht
  | cons a l ih =>
      intro lo hs t ht
      obtain ⟨h1, h2, h3⟩ := hs
      rcases List.mem_cons.1 ht with rfl | ht
      · exact ⟨h1, h2⟩
      · have := ih a.2 h3 t ht
        exact ⟨by omega, this.2⟩

theorem le_lastEnd :
    ∀ (l : List (Nat × Nat)) (lo : Nat), tagsSortedFrom lo l →
      lo ≤ lastEnd lo l := by
  intro l
  induction l with
  | nil => intro lo _; simp [lastEnd]
  | cons t l ih =>
      intro lo hs
      obtain ⟨h1, h2, h3⟩ := hs
      have := ih t.2 h3
      simp only [lastEnd]
      omega

theorem middle_eq_complement (tf : Nat) :
    ∀ (rest : List (Nat × Nat)) (t0 : Nat × Nat),
      List.Chain (fun a b : Nat × Nat => a.2 < b.1) t0 rest →
      (((t0 :: rest).zip rest).map (fun p => (p.1.2, p.2.1)))
          ++ (if (rest.getLastD t0).2 < tf then [((rest.getLastD t0).2, tf)] else [])
        = complementFrom tf t0.2 rest := by
  intro rest
  induction rest with
  | nil => intro t0 _; simp [complementFrom, List.getLastD_nil]
  | cons t1 r ih =>
      intro t0 hch
      rw [List.chain_cons] at hch
      have h01 : t0.2 < t1.1 := hch.1
      have hrec := ih t1 hch.2
      simp only [List.zip_cons_cons, List.map_cons, List.getLastD_cons, complementFrom,
        List.cons_append, if_pos h01, List.singleton_append]
      exact congrArg (fun l => (t0.2, t1.1) :: l) hrec

theorem spec_eq_complementFrom (tf : Nat) (t0 : Nat × Nat)
    (rest : List (Nat × Nat))
    (hch : List.Chain (fun a b : Nat × Nat => a.2 < b.1) t0 rest) :
    specChunkHopRanges tf (t0 :: rest) = complementFrom tf 0 (t0 :: rest) := by
  have hmid := middle_eq_complement tf rest t0 hch
  simp only [specChunkHopRanges, complementFrom, List.append_assoc]
  exact congrArg (fun l => (if 0 < t0.1 then [((0 : Nat), t0.1)] else []) ++ l) hmid

theorem mem_complementFrom (tf : Nat) :
    ∀ (l : List (Nat × Nat)) (lo h : Nat),
      tagsSortedFrom lo l → lastEnd lo l ≤ tf →
      ((∃ r ∈ complementFrom tf lo l, r.1 ≤ h ∧ h < r.2) ↔
        (lo ≤ h ∧ h < tf ∧ ∀ t ∈ l, ¬(t.1 ≤ h ∧ h < t.2))) := by
  intro l
  induction l with
  | nil =>
      intro lo h _ _
      by_cases hc : lo < tf
      · simp only [complementFrom, if_pos hc, List.mem_singleton, List.not_mem_nil]
        constructor
        · rintro ⟨r, rfl, hr1, hr2⟩
          exact ⟨hr1, hr2, by simp⟩
        · rintro ⟨h1, h2, _⟩
          exact ⟨(lo, tf), rfl, h1, h2⟩
      · simp only [complementFrom, if_neg hc, List.not_mem_nil]
        constructor
        · rintro ⟨r, hr, _⟩
          exact absurd hr (by simp)
        · rintro ⟨h1, h2, _⟩
          omega
  | cons t l ih =>
      intro lo h hs hend
      obtain ⟨hlo, hts, hrest⟩ := hs
      have hendl : lastEnd t.2 l ≤ tf := hend
      have ht2 : t.2 ≤ tf := le_trans (le_lastEnd l t.2 hrest) hendl
      have hmem := tagsSortedFrom_mem l t.2 hrest
      have IH := ih t.2 h hrest hendl
      constructor
      · rintro ⟨r, hr, hr1, hr2⟩
        rcases List.mem_append.1 hr with hra | hrb
        · by_cases hc : lo < t.1
          · rw [if_pos hc] at hra
            rw [List.mem_singleton] at hra
            subst hra
            refine ⟨hr1, by omega, ?_⟩
            intro t' ht'
            rcases List.mem_cons.1 ht' with rfl | ht'
            · omega
            · have := hmem t' ht'
              omega
          · rw [if_neg hc] at hra
            exact absurd hra (by simp)
        · have hx := IH.1 ⟨r, hrb, hr1, hr2⟩
          refine ⟨by omega, hx.2.1, ?_⟩
          intro t' ht'
          rcases List.mem_cons.1 ht' with rfl | ht'
          · omega
          · exact hx.2.2 t' ht'
      · rintro ⟨h1, h2, h3⟩
        by_cases hc : h < t.2
        · have hct1 : h < t.1 := by
            have := h3 t (List.mem_cons_self t l)
            omega
          refine ⟨(lo, t.1), ?_, h1, hct1⟩
          have hlt : lo < t.1 := by omega
          exact List.mem_append.2 (Or.inl (by rw [if_pos hlt]; exact List.mem_singleton.2 rfl))
        · have hx := IH.2 ⟨by omega, h2,
            fun t' ht' => h3 t' (List.mem_cons_of_mem _ ht')⟩
          obtain ⟨r, hr, hr1, hr2⟩ := hx
          exact ⟨r, List.mem_append.2 (Or.inr hr), hr1, hr2⟩

theorem complementFrom_sorted (tf : Nat) :
    ∀ (l : List (Nat × Nat)) (lo : Nat),
      tagsSortedFrom lo l →
      List.Chain' (fun r r' : Nat × Nat => r.2 ≤ r'.1) (complementFrom tf lo l)
        ∧ ∀ r ∈ complementFrom tf lo l, lo ≤ r.1 ∧ r.1 < r.2 := by
  intro l
  induction l with
  | nil =>
      intro lo _
      by_cases hc : lo < tf
      · simp only [complementFrom, if_pos hc]
        exact ⟨List.chain'_singleton _, by
          intro r hr
          rw [List.mem_singleton] at hr
          subst hr
          exact ⟨le_refl lo, hc⟩⟩
      · simp only [complementFrom, if_neg hc]
        exact ⟨List.chain'_nil, by intro r hr; simp at hr⟩
  | cons t l ih =>
      intro lo hs
      obtain ⟨hlo, hts, hrest⟩ := hs
      obtain ⟨ihc, ihm⟩ := ih t.2 hrest
      by_cases hc : lo < t.1
      · simp only [complementFrom, if_pos hc, List.singleton_append]
        constructor
        · rw [List.chain'_cons']
          refine ⟨?_, ihc⟩
          intro y hy
          have hym := ihm y (List.mem_of_mem_head? hy)
          have : t.2 ≤ y.1 := hym.1
          simp only
          omega
        · intro r hr
          rcases List.mem_cons.1 hr with rfl | hr
          · exact ⟨le_refl lo, hc⟩
          · have := ihm r hr
            exact ⟨by omega, this.2⟩
      · simp only [complementFrom, if_neg hc, List.nil_append]
        refine ⟨ihc, ?_⟩
        intro r hr
        have := ihm r hr
        exact ⟨by omega, this.2⟩

theorem chain_applySlice (hop ws : Nat) (hhop : 0 < hop) :
    ∀ l : List (Nat × Nat),
      List.Chain' (fun r r' : Nat × Nat => r.2 ≤ r'.1) l →
      (∀ r ∈ l, r.1 < r.2) →
      List.Chain' (fun q q' : Nat × Nat => q.1 < q'.1 ∧ q.2 ≤ q'.1)
        (l.map (fun r => applySlice hop ws r.1 r.2)) := by
  intro l
  induction l with
  | nil => intro _ _; simp
  | cons a l ih =>
      intro hch hmem
      cases l with
      | nil => simp [List.chain'_singleton]
      | cons b l' =>
          rw [List.chain'_cons] at hch
          have hab : a.2 ≤ b.1 := hch.1
          have ha : a.1 < a.2 := hmem a (List.mem_cons_self a _)
          have hrec := ih hch.2
            (fun r hr => hmem r (List.mem_cons_of_mem _ hr))
          simp only [List.map_cons] at hrec ⊢
          rw [List.chain'_cons]
          refine ⟨⟨?_, ?_⟩, hrec⟩
          · simp only [applySlice]
            exact Nat.mul_lt_mul_of_lt_of_le (by omega) (le_refl hop) hhop
          · simp only [applySlice]
            calc min ws (a.2 * hop) ≤ a.2 * hop := Nat.min_le_right _ _
              _ ≤ b.1 * hop := Nat.mul_le_mul_right hop hab

theorem getRanges_eq_map (hop ws tf : Nat) :
    ∀ tags : List (Nat × Nat),
      getRanges hop ws tf tags =
        (specChunkHopRanges tf tags).map (fun r => applySlice hop ws r.1 r.2) := by
  intro tags
  cases tags with
  | nil => rfl
  | cons t0 rest =>
      simp only [getRanges, specChunkHopRanges, List.map_append,
        apply_ite (List.map (fun r : Nat × Nat => applySlice hop ws r.1 r.2)),
        List.map_map, List.map_cons, List.map_nil, Function.comp]
      rfl

/-! ## Claim theorems -/

/-- C1: for every ordered, non-overlapping, non-adjacent, non-empty list of
accepted silence episodes (hop-unit tags) lying inside `[0, total_frames)`,
the ranges computed by `_get_ranges` are exactly the enumerated complement of
the episodes within `[0, total_frames)` (converted to sample units by
`_apply_slice`): a hop `h` lies in some emitted hop-range iff `h < tf` and
`h` is in no episode; and the emitted frame ranges are strictly increasing
and non-overlapping in emission order. -/
theorem chunk_ranges_complement (hop ws tf : Nat) (tags : List (Nat × Nat))
    (hhop : 0 < hop) (hne : tags ≠ [])
    (hsorted : tagsSortedFrom 0 tags)
    (hsep : List.Chain' (fun a b : Nat × Nat => a.2 < b.1) tags)
    (hend : lastEnd 0 tags ≤ tf) :
    getRanges hop ws tf tags =
        (specChunkHopRanges tf tags).map (fun r => applySlice hop ws r.1 r.2)
      ∧ (∀ h : Nat,
          (∃ r ∈ specChunkHopRanges tf tags, r.1 ≤ h ∧ h < r.2) ↔
            (h < tf ∧ ∀ t ∈ tags, ¬(t.1 ≤ h ∧ h < t.2)))
      ∧ List.Chain' (fun q q' : Nat × Nat => q.1 < q'.1 ∧ q.2 ≤ q'.1)
          (getRanges hop ws tf tags) := by
  obtain ⟨t0, rest, rfl⟩ := List.exists_cons_of_ne_nil hne
  have hspec : specChunkHopRanges tf (t0 :: rest) = complementFrom tf 0 (t0 :: rest) :=
    spec_eq_complementFrom tf t0 rest hsep
  refine ⟨getRanges_eq_map hop ws tf _, ?_, ?_⟩
  · intro h
    rw [hspec]
    have := mem_complementFrom tf (t0 :: rest) 0 h hsorted hend
    rw [this]
    constructor
    · rintro ⟨_, h2, h3⟩
      exact ⟨h2, h3⟩
    · rintro ⟨h2, h3⟩
      exact ⟨Nat.zero_le h, h2, h3⟩
  · rw [getRanges_eq_map hop ws tf _, hspec]
    have hs := complementFrom_sorted tf (t0 :: rest) 0 hsorted
    exact chain_applySlice hop ws hhop _ hs.1 (fun r hr => (hs.2 r hr).2)

/-- Witness for C1 at hop size 3, waveform length 100, 10 total frames and
the two episodes `(2,4)` and `(6,8)`. -/
theorem chunk_ranges_complement_witness :
    (0 < 3 ∧ ([((2 : Nat), (4 : Nat)), (6, 8)] : List (Nat × Nat)) ≠ []
      ∧ tagsSortedFrom 0 [(2, 4), (6, 8)]
      ∧ List.Chain' (fun a b : Nat × Nat => a.2 < b.1) [(2, 4), (6, 8)]
      ∧ lastEnd 0 [(2, 4), (6, 8)] ≤ 10)
    ∧ (getRanges 3 100 10 [(2, 4), (6, 8)] =
          (specChunkHopRanges 10 [(2, 4), (6, 8)]).map
            (fun r => applySlice 3 100 r.1 r.2)
        ∧ (∀ h : Nat,
            (∃ r ∈ specChunkHopRanges 10 [(2, 4), (6, 8)], r.1 ≤ h ∧ h < r.2) ↔
              (h < 10 ∧ ∀ t ∈ ([((2 : Nat), (4 : Nat)), (6, 8)] : List (Nat × Nat)),
                ¬(t.1 ≤ h ∧ h < t.2)))
        ∧ List.Chain' (fun q q' : Nat × Nat => q.1 < q'.1 ∧ q.2 ≤ q'.1)
            (getRanges 3 100 10 [(2, 4), (6, 8)])) :=
  ⟨⟨by decide, by decide, by decide,
      by simp [List.chain'_cons, List.chain'_singleton], by decide⟩,
    chunk_ranges_complement 3 100 10 [(2, 4), (6, 8)] (by decide) (by decide)
      (by decide) (by simp [List.chain'_cons, List.chain'_singleton]) (by decide)⟩

/-- C2 (code evaluation at the failing input): with no accepted silence
episodes, `_get_ranges` returns the empty list for every hop size, waveform
length and total frame count — never the single whole-buffer chunk that the
specification promises for the no-silence case. -/
theorem getRanges_empty_tags_empty :
    ∀ hop ws tf : Nat, getRanges hop ws tf [] = [] :=
  fun _ _ _ => rfl

/-- C10: the bar values of the preview's "Length Distribution" and "Length
Ranking List" subplots are the hard-coded constant lists of the source, for
every hop size, waveform length, total frame count and silence-tag list —
while the same plotting routine does derive its waveform annotations from the
input. -/
theorem preview_bars_constant :
    ∀ (hop ws tf : Nat) (tags : List (Nat × Nat)) (hop' ws' tf' : Nat)
      (tags' : List (Nat × Nat)),
      (plotPreview hop ws tf tags).distItems
          = ["<2", "<5", "<8", "<11", "<14", "<17", "<20", ">=20"]
      ∧ (plotPreview hop ws tf tags).distValues = [1, 5, 7, 11, 13, 7, 5, 1]
      ∧ (plotPreview hop ws tf tags).rankItems = ["#5", "#1", "#6", "#8", "#12", "#7"]
      ∧ (plotPreview hop ws tf tags).rankValues = [21, 28, 32, 36, 45, 51]
      ∧ (plotPreview hop ws tf tags).distValues
          = (plotPreview hop' ws' tf' tags').distValues
      ∧ (plotPreview hop ws tf tags).rankValues
          = (plotPreview hop' ws' tf' tags').rankValues :=
  fun _ _ _ _ _ _ _ _ => ⟨rfl, rfl, rfl, rfl, rfl, rfl⟩

/-! ## Lemmas about the window state machine -/

theorem winInv_init : winInv initState := by
  constructor <;> simp [winInv, initState]

theorem winInv_step : ∀ (s : WinState) (e : WinEvent), winInv s → winInv (step s e) := by
  intro s e h
  obtain ⟨h1, h2⟩ := h
  cases e with
  | startReq =>
      by_cases hp : s.processing
      · simp only [step, onStart, if_pos hp]
        exact ⟨h1, h2⟩
      · have hp' : s.processing = false := by
          revert hp; cases s.processing <;> simp
        have hw : s.workers = [] := by
          rw [hp'] at h1
          cases hwl : s.workers with
          | nil => rfl
          | cons a l => rw [hwl] at h1; simp at h1
        by_cases hl : s.taskList.length = 0
        · simp only [step, onStart, if_neg hp, if_pos hl]
          exact ⟨h1, h2⟩
        · simp only [step, onStart, if_neg hp, if_neg hl]
          constructor <;> simp [winInv, hw]
  | oneFin => exact ⟨h1, h2⟩
  | threadFin => constructor <;> simp [step, threadFinishedHandler]
  | addFiles picked =>
      by_cases hp : s.processing
      · simp only [step, onAddAudioFiles, if_pos hp]
        exact ⟨h1, h2⟩
      · simp only [step, onAddAudioFiles, if_neg hp]
        exact ⟨h1, h2⟩
  | clearList =>
      by_cases hp : s.processing
      · simp only [step, onClearAudioList, if_pos hp]
        exact ⟨h1, h2⟩
      · simp only [step, onClearAudioList, if_neg hp]
        exact ⟨h1, h2⟩
  | removeFile => exact ⟨h1, h2⟩
  | drop urls => exact ⟨h1, h2⟩

theorem winInv_run : ∀ (evs : List WinEvent) (s : WinState),
    winInv s → winInv (evs.foldl step s) := by
  intro evs
  induction evs with
  | nil => intro s h; exact h
  | cons e evs ih =>
      intro s h
      exact ih (step s e) (winInv_step s e h)

theorem droppedItems_eq :
    ∀ urls : List QUrl, droppedItems urls = wavItems urls := by
  intro urls
  induction urls with
  | nil => rfl
  | cons u rest ih =>
      cases hl : u.isLocalFile <;>
        cases hw : ((pySplitextExt u.localFile).toLower == ".wav") <;>
          simp [droppedItems, wavItems, List.filter_cons, wavUrl, hl, hw, ih]

theorem hasWav_eq_any :
    ∀ urls : List QUrl, hasWav urls = urls.any wavUrl := by
  intro urls
  induction urls with
  | nil => rfl
  | cons u rest ih =>
      cases hl : u.isLocalFile <;>
        cases hw : ((pySplitextExt u.localFile).toLower == ".wav") <;>
          simp [hasWav, List.any_cons, wavUrl, hl, hw, ih]

/-! ## Claim theorems about `MainWindow` handlers -/

/-- C6: while a run is active (`processing` is set), a start request is
rejected: no worker is started and the state is unmodified; and along every
event trace from the initial window state at most one worker thread (one run)
is ever alive. -/
theorem single_active_run :
    (∀ s : WinState, s.processing = true → onStart s = (s, false))
    ∧ ∀ evs : List WinEvent, (evs.foldl step initState).workers.length ≤ 1 := by
  constructor
  · intro s hp
    simp [onStart, hp]
  · intro evs
    exact (winInv_run evs initState winInv_init).2

/-- Witness for C6: a busy state rejects a start request unchanged, and a
concrete trace with a nested start request keeps at most one worker. -/
theorem single_active_run_witness :
    (busyState.processing = true ∧ onStart busyState = (busyState, false))
    ∧ (([WinEvent.startReq, WinEvent.oneFin, WinEvent.startReq,
          WinEvent.threadFin, WinEvent.startReq].foldl step initState).workers.length ≤ 1) :=
  ⟨⟨rfl, single_active_run.1 busyState rfl⟩, single_active_run.2 _⟩

/-- C7: starting with an empty task list and no run in progress is a no-op:
the handler returns normally, starts nothing and leaves the state unchanged. -/
theorem start_with_empty_list_noop :
    ∀ s : WinState, s.processing = false → s.taskList = [] →
      onStart s = (s, false) := by
  intro s h1 h2
  simp [onStart, h1, h2]

/-- Witness for C7 at the initial window state. -/
theorem start_with_empty_list_noop_witness :
    initState.processing = false ∧ initState.taskList = []
      ∧ onStart initState = (initState, false) :=
  ⟨rfl, rfl, start_with_empty_list_noop initState rfl rfl⟩

/-- C8: the remove-audio-file handler never modifies anything: for every
window state (hence every task list and every selection) it returns the state
unchanged. -/
theorem remove_audio_file_noop :
    ∀ s : WinState, onRemoveAudioFile s = s :=
  fun _ => rfl

/-- C9: a drop appends exactly the local-file URLs whose extension
lower-cases to `.wav`, in URL order, storing the full path (and the file name
as display text); everything else about the state is unchanged; and a drag is
accepted iff at least one such URL is present. -/
theorem drop_appends_wav_files :
    ∀ (s : WinState) (urls : List QUrl),
      dropEvent s urls = { s with taskList := s.taskList ++ wavItems urls }
      ∧ (dragEnterAccepts urls = true ↔ ∃ u ∈ urls, wavUrl u = true) := by
  intro s urls
  constructor
  · simp [dropEvent, droppedItems_eq]
  · rw [dragEnterAccepts, hasWav_eq_any]
    simp [List.any_eq_true]

/-- Witness for C9 on a concrete URL list: an upper-case `.WAV` local file is
kept, a non-local URL and a `.mp3` file are skipped, and the drag is
accepted. -/
theorem drop_appends_wav_files_witness :
    dropEvent initState demoUrls
        = { initState with taskList := initState.taskList ++ wavItems demoUrls }
      ∧ (dragEnterAccepts demoUrls = true ↔ ∃ u ∈ demoUrls, wavUrl u = true) :=
  drop_appends_wav_files initState demoUrls

/-! ## Lemmas about the batch run -/

theorem runFiles_all_ok (decode : String → Option (NDArr × Nat))
    (sliceFn : NDArr → List NDArr) (setting cwd : String) (dirExists : Bool) :
    ∀ files : List String, (∀ f ∈ files, (decode f).isSome = true) →
      (runFiles decode sliceFn setting cwd dirExists files).1.map Prod.fst = files
      ∧ (runFiles decode sliceFn setting cwd dirExists files).2 = none := by
  intro files
  induction files with
  | nil => intro _; exact ⟨rfl, rfl⟩
  | cons f rest ih =>
      intro hok
      have hf : (decode f).isSome = true := hok f (List.mem_cons_self f rest)
      obtain ⟨d, hd⟩ := Option.isSome_iff_exists.1 hf
      have ihh := ih (fun g hg => hok g (List.mem_cons_of_mem _ hg))
      simp [runFiles, hd, ihh.1, ihh.2]

theorem enum_map_fst_fn {β : Type} (g : Nat → β) :
    ∀ {α : Type} (l : List α),
      l.enum.map (fun p => g p.1) = (List.range l.length).map g := by
  intro α l
  have h1 : l.enum.map (fun p => g p.1) = (l.enum.map Prod.fst).map g := by
    rw [List.map_map]
    rfl
  rw [h1, List.enum_eq_enumFrom, List.enumFrom_map_fst, ← List.range_eq_range']

theorem enum_map_snd_fn {α β : Type} (g : α → β) (l : List α) :
    l.enum.map (fun p => g p.2) = l.map g := by
  have h1 : l.enum.map (fun p => g p.2) = (l.enum.map Prod.snd).map g := by
    rw [List.map_map]
    rfl
  rw [h1, List.enum_eq_enumFrom, List.enumFrom_map_snd]

theorem tr_rows_length :
    ∀ (m : List (List Int)), ∀ row ∈ tr m, row.length = m.length := by
  intro m row hrow
  cases m with
  | nil => simp [tr] at hrow
  | cons r rest =>
      simp only [tr, List.mem_map, List.mem_range] at hrow
      obtain ⟨j, _, rfl⟩ := hrow
      simp

/-! ## Claim theorems about the batch pipeline -/

/-- C3 counterexample: with a decoder that fails on `bad.wav` but succeeds on
`good.wav`, running the batch `[bad.wav, good.wav]` completes no file at all —
the decodable `good.wav` is never processed and no aggregate of failures is
produced, only the single uncaught failure. -/
theorem decode_failure_not_local :
    decodeBad "good.wav" ≠ none
    ∧ (runFiles decodeBad passSlice "" "/cwd" false ["bad.wav", "good.wav"]).1 = []
    ∧ (runFiles decodeBad passSlice "" "/cwd" false ["bad.wav", "good.wav"]).2
        = some "bad.wav" := by
  refine ⟨?_, ?_, ?_⟩ <;> decide

/-- C3 (amended): a decode failure is not local to its file — the uncaught
exception aborts the worker loop at the first failing file: exactly the files
before it are processed (in order), every later file is skipped, and only the
failing file's identity is surfaced, with no aggregated failure list. -/
theorem decode_failure_stops_run
    (decode : String → Option (NDArr × Nat)) (sliceFn : NDArr → List NDArr)
    (setting cwd : String) (dirExists : Bool)
    (pre : List String) (bad : String) (rest : List String)
    (hpre : ∀ f ∈ pre, (decode f).isSome = true) (hbad : decode bad = none) :
    (runFiles decode sliceFn setting cwd dirExists (pre ++ bad :: rest)).1.map Prod.fst
        = pre
    ∧ (runFiles decode sliceFn setting cwd dirExists (pre ++ bad :: rest)).2
        = some bad := by
  induction pre with
  | nil => simp [runFiles, hbad]
  | cons f pre ih =>
      have hf : (decode f).isSome = true := hpre f (List.mem_cons_self f pre)
      obtain ⟨d, hd⟩ := Option.isSome_iff_exists.1 hf
      have ihh := ih (fun g hg => hpre g (List.mem_cons_of_mem _ hg))
      simp [runFiles, hd, ihh.1, ihh.2]

/-- Witness for the amended C3: `good.wav` decodes, `bad.wav` fails, and the
run over `[good.wav, bad.wav, late.wav]` processes exactly `good.wav` and
stops at `bad.wav`. -/
theorem decode_failure_stops_run_witness :
    ((∀ f ∈ ["good.wav"], (decodeBad f).isSome = true)
      ∧ decodeBad "bad.wav" = none)
    ∧ ((runFiles decodeBad passSlice "" "/cwd" false
          (["good.wav"] ++ "bad.wav" :: ["late.wav"])).1.map Prod.fst = ["good.wav"]
      ∧ (runFiles decodeBad passSlice "" "/cwd" false
          (["good.wav"] ++ "bad.wav" :: ["late.wav"])).2 = some "bad.wav") :=
  ⟨⟨by decide, by decide⟩,
    decode_failure_stops_run decodeBad passSlice "" "/cwd" false
      ["good.wav"] "bad.wav" ["late.wav"] (by decide) (by decide)⟩

/-- C4: when every file of the batch decodes, the run emits exactly one
completion event per input file, in file order, followed by exactly one final
batch-completion event. -/
theorem one_event_per_file (decode : String → Option (NDArr × Nat))
    (sliceFn : NDArr → List NDArr) (setting cwd : String) (dirExists : Bool)
    (files : List String) (hok : ∀ f ∈ files, (decode f).isSome = true) :
    guiEvents decode sliceFn setting cwd dirExists files
      = files.map RunEvent.fileDone ++ [RunEvent.batchDone] := by
  have h := runFiles_all_ok decode sliceFn setting cwd dirExists files hok
  have h2 : (runFiles decode sliceFn setting cwd dirExists files).1.map
      (fun p => RunEvent.fileDone p.1)
        = ((runFiles decode sliceFn setting cwd dirExists files).1.map Prod.fst).map
            RunEvent.fileDone := by
    rw [List.map_map]
    rfl
  rw [guiEvents, h2, h.1]

/-- Witness for C4 on a two-file batch with an always-succeeding decoder. -/
theorem one_event_per_file_witness :
    (∀ f ∈ ["a.wav", "b.wav"], (decodeOk f).isSome = true)
    ∧ guiEvents decodeOk passSlice "" "/cwd" false ["a.wav", "b.wav"]
        = (["a.wav", "b.wav"].map RunEvent.fileDone) ++ [RunEvent.batchDone] :=
  ⟨by decide,
    one_event_per_file decodeOk passSlice "" "/cwd" false ["a.wav", "b.wav"] (by decide)⟩

/-- C5: for each input file the run writes one output per chunk, at the path
`{stem}_{i}.{ext}` with zero-based sequential index in emission order, inside
the configured destination directory (`mkpath` is invoked exactly when a
destination is configured and does not exist) or beside the source file when
none is configured; every write carries the source sample rate; mono chunks
are written unchanged and multi-channel chunks are transposed back, so a
channel-major chunk of `c` channels is written as a frame-major array whose
every frame again has `c` channels. -/
theorem chunk_writes_spec
    (sliceFn : NDArr → List NDArr) (setting cwd : String) (dirExists : Bool)
    (filename : String) (audio0 : NDArr) (sr : Nat) :
    (processFile sliceFn setting cwd dirExists filename audio0 sr).writes.map
          WriteOp.path
        = (List.range (sliceFn (if audio0.isMultiDim then audio0.T else audio0)).length).map
            (chunkPath (runOutDir setting cwd filename) (pyStem (pyBasename filename)))
      ∧ (processFile sliceFn setting cwd dirExists filename audio0 sr).mkpathCalled
          = (if setting = "" then false else !dirExists)
      ∧ (∀ w ∈ (processFile sliceFn setting cwd dirExists filename audio0 sr).writes,
          w.sr = sr)
      ∧ (processFile sliceFn setting cwd dirExists filename audio0 sr).writes.map
            WriteOp.data
          = (sliceFn (if audio0.isMultiDim then audio0.T else audio0)).map
              (fun c => if audio0.isMultiDim then c.T else c)
      ∧ (∀ m : List (List Int),
          (NDArr.two m).T = NDArr.two (tr m) ∧ ∀ row ∈ tr m, row.length = m.length) := by
  have hmono : ∀ (c : NDArr),
      (if !audio0.isMultiDim then c else c.T)
        = (if audio0.isMultiDim then c.T else c) := by
    intro c
    cases audio0 <;> simp [NDArr.isMultiDim]
  have haudio : (if !audio0.isMultiDim then audio0 else audio0.T)
      = (if audio0.isMultiDim then audio0.T else audio0) := hmono audio0
  refine ⟨?_, rfl, ?_, ?_, ?_⟩
  · simp only [processFile, List.map_map, haudio]
    exact enum_map_fst_fn
      (chunkPath (runOutDir setting cwd filename) (pyStem (pyBasename filename)))
      (sliceFn (if audio0.isMultiDim then audio0.T else audio0))
  · intro w hw
    simp only [processFile, List.mem_map] at hw
    obtain ⟨p, _, rfl⟩ := hw
    rfl
  · simp only [processFile, List.map_map, haudio]
    have := enum_map_snd_fn
      (fun c : NDArr => if audio0.isMultiDim then c.T else c)
      (sliceFn (if audio0.isMultiDim then audio0.T else audio0))
    rw [← this]
    apply List.map_congr_left
    intro p _
    simp only [Function.comp]
    exact hmono p.2
  · intro m
    exact ⟨rfl, tr_rows_length m⟩

/-- Witness for C5: a stereo three-frame file sliced into one chunk is
written as `/music/song_0.wav` beside the source, at its sample rate, with
two channels per frame again. -/
theorem chunk_writes_spec_witness :
    (processFile passSlice "" "/cwd" false "/music/song.wav"
          (NDArr.two [[1, 2], [3, 4], [5, 6]]) 22050).writes.map WriteOp.path
        = (List.range (passSlice ((NDArr.two [[1, 2], [3, 4], [5, 6]]).T)).length).map
            (chunkPath (runOutDir "" "/cwd" "/music/song.wav")
              (pyStem (pyBasename "/music/song.wav")))
      ∧ (processFile passSlice "" "/cwd" false "/music/song.wav"
            (NDArr.two [[1, 2], [3, 4], [5, 6]]) 22050).mkpathCalled = false
      ∧ (∀ w ∈ (processFile passSlice "" "/cwd" false "/music/song.wav"
            (NDArr.two [[1, 2], [3, 4], [5, 6]]) 22050).writes, w.sr = 22050)
      ∧ (processFile passSlice "" "/cwd" false "/music/song.wav"
            (NDArr.two [[1, 2], [3, 4], [5, 6]]) 22050).writes.map WriteOp.data
          = (passSlice ((NDArr.two [[1, 2], [3, 4], [5, 6]]).T)).map (fun c => c.T)
      ∧ (∀ m : List (List Int),
          (NDArr.two m).T = NDArr.two (tr m) ∧ ∀ row ∈ tr m, row.length = m.length) := by
  have h := chunk_writes_spec passSlice "" "/cwd" false "/music/song.wav"
    (NDArr.two [[1, 2], [3, 4], [5, 6]]) 22050
  exact ⟨h.1, h.2.1, h.2.2.1, h.2.2.2.1, h.2.2.2.2⟩

end AudioSlicer
